import Mathlib

/-!
Shallow embedding of `src/list.rs` of the rpds repository: a persistent
singly-linked list (`List<T>`) built from reference-counted nodes
(`Node<T>`), carrying a cached length, together with its iterator
(`Iter<'a, T>`) and the derived equality, partial ordering and hashing.

Reference-counted sharing (`Arc`) is not observable in a pure embedding,
so a node holds its successor directly; everything the claims speak about
(lengths, element sequences, iterator steps, comparisons, hash input
order) is preserved by this translation.
-/

set_option autoImplicit false

/-- Lean's builtin lists, used only to describe full head-to-tail
iteration sequences of the Rust structure. -/
abbrev Elems (α : Type) := List α

namespace Rpds

/-- `enum Node<T> { Cons(T, Arc<Node<T>>), Nil }` (src/list.rs:53-57). -/
inductive Node (α : Type) where
  | Cons : α → Node α → Node α
  | Nil : Node α
  deriving DecidableEq

/-- `pub struct List<T> { node: Arc<Node<T>>, length: usize }`
(src/list.rs:47-51).  `usize` is modelled by `Nat`; the only subtraction
performed on `length` is the one in `tail`, which is reached only behind
a `Node::Cons` match. -/
structure List (α : Type) where
  node : Node α
  length : Nat
  deriving DecidableEq

/-- `List::new` (src/list.rs:60-65). -/
def List.new {α : Type} : List α :=
  { node := Node.Nil, length := 0 }

/-- `List::head` (src/list.rs:67-72). -/
def List.head {α : Type} (l : List α) : Option α :=
  match l.node with
  | Node.Cons h _ => some h
  | Node.Nil => none

/-- `List::tail` (src/list.rs:74-79). -/
def List.tail {α : Type} (l : List α) : Option (List α) :=
  match l.node with
  | Node.Cons _ t => some { node := t, length := l.length - 1 }
  | Node.Nil => none

/-- `List::cons` (src/list.rs:81-86). -/
def List.cons {α : Type} (l : List α) (v : α) : List α :=
  { node := Node.Cons v l.node, length := l.length + 1 }

/-- `List::len` (src/list.rs:88-91). -/
def List.len {α : Type} (l : List α) : Nat :=
  l.length

/-- `List::is_empty` (src/list.rs:93-96). -/
def List.is_empty {α : Type} (l : List α) : Bool :=
  l.len == 0

/-- `Clone for List` (src/list.rs:137-144): copies the shared node
reference and the cached length. -/
def List.clone {α : Type} (l : List α) : List α :=
  { node := l.node, length := l.length }

/-- `pub struct Iter<'a, T> { next: &'a Node<T>, length: usize }`
(src/list.rs:193-197). -/
structure Iter (α : Type) where
  next : Node α
  length : Nat
  deriving DecidableEq

/-- `Iter::new` (src/list.rs:199-206). -/
def Iter.new {α : Type} (l : List α) : Iter α :=
  { next := l.node, length := l.len }

/-- One call of `Iterator::next for Iter` (src/list.rs:211-220): the
produced element, if any, together with the cursor state afterwards. -/
def Iter.step {α : Type} (it : Iter α) : Option α × Iter α :=
  match it.next with
  | Node.Cons v t => (some v, { next := t, length := it.length - 1 })
  | Node.Nil => (none, it)

/-- `Iterator::size_hint for Iter` (src/list.rs:222-224). -/
def Iter.size_hint {α : Type} (it : Iter α) : Nat × Option Nat :=
  (it.length, some it.length)

/-- The full head-to-tail element sequence hanging off a node: the
denotation against which iteration, equality, ordering and hashing are
specified. -/
def Node.toSeq {α : Type} : Node α → Elems α
  | Node.Cons v t => v :: t.toSeq
  | Node.Nil => []

/-- Stepping a cursor repeatedly until it reports the absent signal,
with explicit fuel (the chains are finite, and enough fuel makes the
result fuel-independent, see `Iter.runFuel_eq_toSeq`). -/
def Iter.runFuel {α : Type} : Nat → Iter α → Elems α
  | 0, _ => []
  | fuel + 1, it =>
    match it.step with
    | (some v, it2) => v :: Iter.runFuel fuel it2
    | (none, _) => []

/-- Fully iterating a list: run a fresh cursor to exhaustion. -/
def List.iterate {α : Type} (l : List α) : Elems α :=
  Iter.runFuel l.node.toSeq.length (Iter.new l)

/-- `FromIterator::from_iter for List` (src/list.rs:173-191): buffer the
source's elements in iteration order, then cons them back-to-front onto
the empty list. -/
def List.fromIter {α : Type} (s : Elems α) : List α :=
  s.reverse.foldl (fun acc v => acc.cons v) List.new

/-- `Iterator::eq` applied to two node chains, as used by
`PartialEq for List`: pairwise element equality with simultaneous
exhaustion. -/
def Node.eqSeq {α : Type} [BEq α] : Node α → Node α → Bool
  | Node.Cons a t1, Node.Cons b t2 => a == b && Node.eqSeq t1 t2
  | Node.Nil, Node.Nil => true
  | _, _ => false

/-- `PartialEq for List` (src/list.rs:109-113): short-circuit on the
cached lengths, then compare the two iterators element by element. -/
def List.beq {α : Type} [BEq α] (l1 l2 : List α) : Bool :=
  l1.length == l2.length && Node.eqSeq l1.node l2.node

/-- `Iterator::partial_cmp` applied to two node chains, as used by
`PartialOrd for List` (src/list.rs:117-121); `pcmp` stands for the
element type's `PartialOrd::partial_cmp`. -/
def Node.partialCmp {α : Type} (pcmp : α → α → Option Ordering) :
    Node α → Node α → Option Ordering
  | Node.Nil, Node.Nil => some Ordering.eq
  | Node.Nil, Node.Cons _ _ => some Ordering.lt
  | Node.Cons _ _, Node.Nil => some Ordering.gt
  | Node.Cons a t1, Node.Cons b t2 =>
    match pcmp a b with
    | some Ordering.eq => Node.partialCmp pcmp t1 t2
    | some o => some o
    | none => none

/-- `PartialOrd for List` (src/list.rs:117-121). -/
def List.partialCmp {α : Type} (pcmp : α → α → Option Ordering)
    (l1 l2 : List α) : Option Ordering :=
  Node.partialCmp pcmp l1.node l2.node

/-- `Hash for List` (src/list.rs:129-135): feed every element to the
hasher in head-to-tail order; `upd s e` stands for `e.hash(state)`
applied to an abstract hasher state `s`. -/
def Node.hashFold {α σ : Type} (upd : σ → α → σ) : Node α → σ → σ
  | Node.Cons v t, s => Node.hashFold upd t (upd s v)
  | Node.Nil, s => s

/-- `Hash for List` entry point (src/list.rs:129-135). -/
def List.hashInto {α σ : Type} (upd : σ → α → σ) (l : List α) (s : σ) : σ :=
  Node.hashFold upd l.node s

/-- Lexicographic comparison of plain sequences, written from the spec's
description of list ordering; used only to state that the iterator-based
comparison in the code refines it. -/
def seqLexCmpSpec {α : Type} (pcmp : α → α → Option Ordering) :
    Elems α → Elems α → Option Ordering
  | [], [] => some Ordering.eq
  | [], _ :: _ => some Ordering.lt
  | _ :: _, [] => some Ordering.gt
  | a :: s, b :: t =>
    match pcmp a b with
    | some Ordering.eq => seqLexCmpSpec pcmp s t
    | some o => some o
    | none => none

/-- List handles obtainable through the public constructors: `new`,
`cons`, `tail`, `clone` and `from_iter`. -/
inductive Reachable {α : Type} : List α → Prop where
  | new : Reachable List.new
  | cons {l : List α} (v : α) : Reachable l → Reachable (l.cons v)
  | tail {l l2 : List α} : Reachable l → l.tail = some l2 → Reachable l2
  | clone {l : List α} : Reachable l → Reachable l.clone
  | fromIter (s : Elems α) : Reachable (List.fromIter s)

/-- An element comparison with an incomparable value, mirroring `f32`
where `0.0.partial_cmp(&NAN)` is `None`: the value `0` plays the role of
a not-a-number. -/
def pcNan : Nat → Nat → Option Ordering :=
  fun a b => if a == 0 || b == 0 then none else some (compare a b)

/-- Consing onto the front of the source commutes with `from_iter`:
building from `a :: s` is consing `a` onto the list built from `s`. -/
theorem List.fromIter_cons {α : Type} (a : α) (s : Elems α) :
    List.fromIter (a :: s) = (List.fromIter s).cons a := by
  simp [List.fromIter, List.reverse_cons, List.foldl_append]

/-- The node chain built by `from_iter` denotes exactly the source
sequence. -/
theorem List.fromIter_toSeq {α : Type} (s : Elems α) :
    (List.fromIter s).node.toSeq = s := by
  induction s with
  | nil => rfl
  | cons a s ih =>
    rw [List.fromIter_cons]
    simp [List.cons, Node.toSeq, ih]

/-- The cached length of a list built by `from_iter` is the source's
length. -/
theorem List.fromIter_length {α : Type} (s : Elems α) :
    (List.fromIter s).length = s.length := by
  induction s with
  | nil => rfl
  | cons a s ih =>
    rw [List.fromIter_cons]
    simp [List.cons, ih]

/-- With enough fuel, stepping a cursor to exhaustion produces the node
chain's denotation, independently of the fuel and of the cursor's
remaining-count field. -/
theorem Iter.runFuel_eq_toSeq {α : Type} (n : Node α) :
    ∀ (fuel len : Nat), n.toSeq.length ≤ fuel →
      Iter.runFuel fuel { next := n, length := len } = n.toSeq := by
  induction n with
  | Nil =>
    intro fuel len _
    cases fuel with
    | zero => rfl
    | succ f => simp [Iter.runFuel, Iter.step, Node.toSeq]
  | Cons v t ih =>
    intro fuel len h
    cases fuel with
    | zero => simp [Node.toSeq] at h
    | succ f =>
      simp only [Node.toSeq, List.length_cons] at h
      simp only [Iter.runFuel, Iter.step, Node.toSeq]
      rw [ih f (len - 1) (by omega)]

/-- Fully iterating a list yields its node chain's denotation. -/
theorem List.iterate_eq_toSeq {α : Type} (l : List α) :
    l.iterate = l.node.toSeq :=
  Iter.runFuel_eq_toSeq l.node _ _ (Nat.le_refl _)

/-- Handle invariant: every reachable list's cached length equals the
number of element nodes in its chain. -/
theorem Reachable.length_eq {α : Type} {l : List α} (h : Reachable l) :
    l.length = l.node.toSeq.length := by
  induction h with
  | new => rfl
  | cons v _ ih =>
    simp only [List.cons, Node.toSeq, List.length_cons]
    omega
  | tail hr heq ih =>
    rename_i lp lc
    cases hn : lp.node with
    | Nil => simp [List.tail, hn] at heq
    | Cons v t =>
      simp only [List.tail, hn] at heq
      rw [hn, Node.toSeq, List.length_cons] at ih
      rw [Option.some.injEq] at heq
      rw [← heq]
      simp only [Node.toSeq]
      omega
  | clone _ ih => exact ih
  | fromIter s => rw [List.fromIter_toSeq, List.fromIter_length]

/-- `Iterator::eq` on node chains decides equality of their
denotations. -/
theorem Node.eqSeq_iff {α : Type} [BEq α] [LawfulBEq α] :
    ∀ n1 n2 : Node α, Node.eqSeq n1 n2 = true ↔ n1.toSeq = n2.toSeq := by
  intro n1
  induction n1 with
  | Nil =>
    intro n2
    cases n2 <;> simp [Node.eqSeq, Node.toSeq]
  | Cons a t ih =>
    intro n2
    cases n2 with
    | Nil => simp [Node.eqSeq, Node.toSeq]
    | Cons b t2 => simp [Node.eqSeq, Node.toSeq, ih]

/-- `PartialEq for List` decides the conjunction of length equality and
denotation equality. -/
theorem List.beq_iff {α : Type} [BEq α] [LawfulBEq α] (l1 l2 : List α) :
    List.beq l1 l2 = true ↔
      l1.length = l2.length ∧ l1.node.toSeq = l2.node.toSeq := by
  simp [List.beq, Node.eqSeq_iff]

/-- The hash loop is a left fold of the hasher state over the node
chain's denotation, in head-to-tail order. -/
theorem Node.hashFold_eq_foldl {α σ : Type} (upd : σ → α → σ) :
    ∀ (n : Node α) (s : σ), Node.hashFold upd n s = n.toSeq.foldl upd s := by
  intro n
  induction n with
  | Nil => intro s; rfl
  | Cons v t ih => intro s; simp [Node.hashFold, Node.toSeq, ih]

/-- The iterator-based comparison of node chains computes the spec's
lexicographic comparison of their denotations. -/
theorem Node.partialCmp_eq_spec {α : Type} (pcmp : α → α → Option Ordering) :
    ∀ n1 n2 : Node α,
      Node.partialCmp pcmp n1 n2 = seqLexCmpSpec pcmp n1.toSeq n2.toSeq := by
  intro n1
  induction n1 with
  | Nil =>
    intro n2
    cases n2 <;> simp [Node.partialCmp, seqLexCmpSpec, Node.toSeq]
  | Cons a t ih =>
    intro n2
    cases n2 with
    | Nil => simp [Node.partialCmp, seqLexCmpSpec, Node.toSeq]
    | Cons b t2 =>
      simp only [Node.partialCmp, seqLexCmpSpec, Node.toSeq]
      cases pcmp a b with
      | none => rfl
      | some o => cases o <;> simp [ih]

/-- A sequence whose elements compare equal to themselves is
lexicographically below any proper extension of itself. -/
theorem seqLexCmpSpec_self_append {α : Type} (pcmp : α → α → Option Ordering) :
    ∀ (s : Elems α), (∀ a ∈ s, pcmp a a = some Ordering.eq) →
      ∀ (x : α) (rest : Elems α),
        seqLexCmpSpec pcmp s (s ++ x :: rest) = some Ordering.lt := by
  intro s
  induction s with
  | nil => intro _ x rest; rfl
  | cons a s ih =>
    intro h x rest
    have ha : pcmp a a = some Ordering.eq := h a (by simp)
    simp only [List.cons_append, seqLexCmpSpec, ha]
    exact ih (fun b hb => h b (by simp [hb])) x rest

/-- Claim C1: for every list handle reachable via the public operations
(`new`, `cons`, `tail`, `clone`, `from_iter`), the cached length equals
the number of elements produced by fully iterating the list, and the
length is maintained arithmetically: plus one on `cons` and minus one on
`tail`, never by traversal. -/
theorem c1_length_invariant {α : Type} (l : List α) (h : Reachable l) :
    l.len = l.iterate.length
    ∧ (∀ v : α, (l.cons v).len = l.len + 1)
    ∧ (∀ l2, l.tail = some l2 → l2.len = l.len - 1) := by
  refine ⟨?_, fun v => rfl, ?_⟩
  · rw [List.iterate_eq_toSeq]
    exact h.length_eq
  · intro l2 heq
    cases hn : l.node with
    | Nil => simp [List.tail, hn] at heq
    | Cons v t =>
      simp only [List.tail, hn, Option.some.injEq] at heq
      rw [← heq]
      rfl

/-- Witness for C1 at the concrete handle built from `[7, 8, 9]`. -/
theorem c1_length_invariant_witness :
    (List.fromIter [7, 8, 9] : List Nat).len
      = (List.fromIter [7, 8, 9] : List Nat).iterate.length :=
  (c1_length_invariant (List.fromIter [7, 8, 9]) (Reachable.fromIter [7, 8, 9])).1

/-- Claim C2: `cons(L, v).tail()` yields a list equal to `L` — both as
the very same handle value and under the library's own equality — and
`cons` reads but never alters the receiver, which in this pure embedding
is immediate since the receiver `L` itself is returned intact. -/
theorem c2_cons_tail {α : Type} [BEq α] [LawfulBEq α] (l : List α) (v : α) :
    (l.cons v).tail = some l
    ∧ (∀ l2, (l.cons v).tail = some l2 → List.beq l2 l = true) := by
  refine ⟨rfl, ?_⟩
  intro l2 heq
  rw [show (l.cons v).tail = some l from rfl, Option.some.injEq] at heq
  rw [heq]
  simp [List.beq_iff]

/-- Witness for C2 at the concrete list `[2, 1]` with `v = 5`. -/
theorem c2_cons_tail_witness :
    ((List.new.cons 1).cons 2 |>.cons 5 : List Nat).tail
      = some ((List.new.cons 1).cons 2) :=
  (c2_cons_tail ((List.new.cons 1).cons 2) 5).1

/-- Claim C3: building a list from a finite ordered source yields a list
whose length is the source's element count and whose head-to-tail
iteration reproduces the source's elements in order. -/
theorem c3_from_iter_roundtrip {α : Type} (s : Elems α) :
    (List.fromIter s).len = s.length ∧ (List.fromIter s).iterate = s := by
  constructor
  · exact List.fromIter_length s
  · rw [List.iterate_eq_toSeq]
    exact List.fromIter_toSeq s

/-- Claim C4: list equality holds iff the lengths are equal and the
head-to-tail element sequences are pairwise equal; it is reflexive,
symmetric and transitive, and lists of unequal length are never
equal. -/
theorem c4_eq_characterization {α : Type} [BEq α] [LawfulBEq α] :
    (∀ l1 l2 : List α,
        List.beq l1 l2 = true ↔ (l1.len = l2.len ∧ l1.iterate = l2.iterate))
    ∧ (∀ l : List α, List.beq l l = true)
    ∧ (∀ l1 l2 : List α, List.beq l1 l2 = true → List.beq l2 l1 = true)
    ∧ (∀ l1 l2 l3 : List α, List.beq l1 l2 = true → List.beq l2 l3 = true →
        List.beq l1 l3 = true)
    ∧ (∀ l1 l2 : List α, l1.len ≠ l2.len → List.beq l1 l2 = false) := by
  have hch : ∀ l1 l2 : List α,
      List.beq l1 l2 = true ↔ (l1.len = l2.len ∧ l1.iterate = l2.iterate) := by
    intro l1 l2
    rw [List.beq_iff, List.iterate_eq_toSeq, List.iterate_eq_toSeq]
    exact Iff.rfl
  refine ⟨hch, ?_, ?_, ?_, ?_⟩
  · intro l
    exact (hch l l).2 ⟨rfl, rfl⟩
  · intro l1 l2 h
    have h12 := (hch l1 l2).1 h
    exact (hch l2 l1).2 ⟨h12.1.symm, h12.2.symm⟩
  · intro l1 l2 l3 h12 h23
    have a := (hch l1 l2).1 h12
    have b := (hch l2 l3).1 h23
    exact (hch l1 l3).2 ⟨a.1.trans b.1, a.2.trans b.2⟩
  · intro l1 l2 hne
    cases hb : List.beq l1 l2 with
    | false => rfl
    | true => exact absurd ((hch l1 l2).1 hb).1 hne

/-- Witness for C4: reflexivity at the concrete list built from
`[1, 2]`. -/
theorem c4_eq_characterization_witness :
    List.beq (List.fromIter [1, 2] : List Nat) (List.fromIter [1, 2]) = true :=
  (c4_eq_characterization (α := Nat)).2.1 (List.fromIter [1, 2])

/-- Claim C5: hashing folds the elements into the hasher state in
head-to-tail order, and lists equal under the library's equality feed
the hasher the same element sequence, hence hash identically, for every
hasher. -/
theorem c5_hash_consistency {α σ : Type} [BEq α] [LawfulBEq α]
    (upd : σ → α → σ) :
    (∀ (l : List α) (s : σ), List.hashInto upd l s = l.iterate.foldl upd s)
    ∧ (∀ l1 l2 : List α, List.beq l1 l2 = true →
        l1.iterate = l2.iterate
        ∧ ∀ s : σ, List.hashInto upd l1 s = List.hashInto upd l2 s) := by
  have hfold : ∀ (l : List α) (s : σ),
      List.hashInto upd l s = l.iterate.foldl upd s := by
    intro l s
    rw [List.iterate_eq_toSeq]
    exact Node.hashFold_eq_foldl upd l.node s
  refine ⟨hfold, ?_⟩
  intro l1 l2 h
  have hseq : l1.iterate = l2.iterate := by
    rw [List.iterate_eq_toSeq, List.iterate_eq_toSeq]
    exact ((List.beq_iff l1 l2).1 h).2
  exact ⟨hseq, fun s => by rw [hfold, hfold, hseq]⟩

/-- Witness for C5: the lists built as `from_iter([1, 2])` and
`new().cons(2).cons(1)` are equal and hash identically under a concrete
hasher. -/
theorem c5_hash_consistency_witness :
    List.hashInto (fun s a => s * 31 + a) (List.fromIter [1, 2] : List Nat) 0
      = List.hashInto (fun s a => s * 31 + a) ((List.new.cons 2).cons 1) 0 :=
  ((c5_hash_consistency (fun s a => s * 31 + a)).2
      (List.fromIter [1, 2]) ((List.new.cons 2).cons 1) (by decide)).2 0

/-- Claim C6: list comparison is lexicographic over the head-to-tail
sequences: it coincides with the spec's sequence comparison, the first
differing or incomparable element pair determines the result regardless
of the tails, an element pair comparing equal defers to the tails, and a
strict prefix (whose elements compare equal to themselves) is ordered
strictly below the longer list. -/
theorem c6_partial_ord {α : Type} (pcmp : α → α → Option Ordering) :
    (∀ l1 l2 : List α,
        List.partialCmp pcmp l1 l2 = seqLexCmpSpec pcmp l1.iterate l2.iterate)
    ∧ (∀ (a b : α) (t1 t2 : Node α), pcmp a b = none →
        Node.partialCmp pcmp (Node.Cons a t1) (Node.Cons b t2) = none)
    ∧ (∀ (a b : α) (t1 t2 : Node α) (o : Ordering), pcmp a b = some o →
        o ≠ Ordering.eq →
        Node.partialCmp pcmp (Node.Cons a t1) (Node.Cons b t2) = some o)
    ∧ (∀ (a b : α) (t1 t2 : Node α), pcmp a b = some Ordering.eq →
        Node.partialCmp pcmp (Node.Cons a t1) (Node.Cons b t2)
          = Node.partialCmp pcmp t1 t2)
    ∧ (∀ l1 l2 : List α, (∀ a ∈ l1.iterate, pcmp a a = some Ordering.eq) →
        (∃ x rest, l2.iterate = l1.iterate ++ x :: rest) →
        List.partialCmp pcmp l1 l2 = some Ordering.lt) := by
  refine ⟨?_, ?_, ?_, ?_, ?_⟩
  · intro l1 l2
    rw [List.iterate_eq_toSeq, List.iterate_eq_toSeq]
    exact Node.partialCmp_eq_spec pcmp l1.node l2.node
  · intro a b t1 t2 h
    simp [Node.partialCmp, h]
  · intro a b t1 t2 o h ho
    cases o with
    | lt => simp [Node.partialCmp, h]
    | eq => exact absurd rfl ho
    | gt => simp [Node.partialCmp, h]
  · intro a b t1 t2 h
    simp [Node.partialCmp, h]
  · intro l1 l2 hrefl hpre
    obtain ⟨x, rest, hx⟩ := hpre
    rw [List.iterate_eq_toSeq] at hrefl
    rw [List.iterate_eq_toSeq, List.iterate_eq_toSeq] at hx
    unfold List.partialCmp
    rw [Node.partialCmp_eq_spec, hx]
    exact seqLexCmpSpec_self_append pcmp _ hrefl x rest

/-- Witness for C6: a list whose head is the not-a-number stand-in is
incomparable with a list whose tail differs from its own. -/
theorem c6_partial_ord_witness :
    Node.partialCmp pcNan (Node.Cons 0 Node.Nil)
      (Node.Cons 1 (Node.Cons 5 Node.Nil)) = none :=
  (c6_partial_ord pcNan).2.1 0 1 Node.Nil (Node.Cons 5 Node.Nil) rfl

/-- Claim C7: a cursor freshly produced from a handle has a
remaining-count equal to the handle's length, which for a reachable
handle is exactly the number of elements still to be produced; each step
preserves that exactness; and a cursor standing at the terminator
answers the absent signal on this and every subsequent step. -/
theorem c7_cursor_exactness {α : Type} :
    (∀ l : List α, (Iter.new l).length = l.len)
    ∧ (∀ l : List α, Reachable l →
        (Iter.new l).length = (Iter.new l).next.toSeq.length)
    ∧ (∀ it : Iter α, it.length = it.next.toSeq.length →
        it.step.2.length = it.step.2.next.toSeq.length)
    ∧ (∀ it : Iter α, it.next = Node.Nil → it.step = (none, it))
    ∧ (∀ (it : Iter α) (fuel : Nat), it.next = Node.Nil →
        Iter.runFuel fuel it = []) := by
  refine ⟨fun l => rfl, ?_, ?_, ?_, ?_⟩
  · intro l h
    exact h.length_eq
  · intro it hinv
    cases hn : it.next with
    | Nil =>
      rw [hn] at hinv
      simp only [Iter.step, hn]
      exact hinv
    | Cons v t =>
      rw [hn, Node.toSeq, List.length_cons] at hinv
      simp only [Iter.step, hn]
      show it.length - 1 = t.toSeq.length
      omega
  · intro it hn
    simp [Iter.step, hn]
  · intro it fuel hn
    cases fuel with
    | zero => rfl
    | succ f => simp [Iter.runFuel, Iter.step, hn]

/-- Witness for C7: the fresh cursor over the list built from `[4, 4]`
has an exact remaining-count. -/
theorem c7_cursor_exactness_witness :
    (Iter.new (List.fromIter [4, 4] : List Nat)).length
      = (Iter.new (List.fromIter [4, 4] : List Nat)).next.toSeq.length :=
  (c7_cursor_exactness (α := Nat)).2.1 (List.fromIter [4, 4])
    (Reachable.fromIter [4, 4])

/-- Claim C8: on every reachable handle, `head` and `tail` answer the
explicit absent signal exactly when the list is empty; on a non-empty
list `head` is the first iterated element and `tail` is a list one
shorter whose iteration drops that first element; no operation makes an
unchecked emptiness assumption — emptiness is always discriminated by
the node match. -/
theorem c8_head_tail_absent {α : Type} (l : List α) (h : Reachable l) :
    (l.head = none ↔ l.is_empty = true)
    ∧ (l.tail = none ↔ l.is_empty = true)
    ∧ l.head = l.iterate.head?
    ∧ (∀ l2, l.tail = some l2 →
        l2.len = l.len - 1 ∧ l2.iterate = l.iterate.tail) := by
  have hlen := h.length_eq
  cases hn : l.node with
  | Nil =>
    rw [hn] at hlen
    simp only [Node.toSeq, List.length_nil] at hlen
    refine ⟨?_, ?_, ?_, ?_⟩
    · simp [List.head, hn, List.is_empty, List.len, hlen]
    · simp [List.tail, hn, List.is_empty, List.len, hlen]
    · rw [List.iterate_eq_toSeq, hn]
      simp [List.head, hn, Node.toSeq]
    · intro l2 heq
      simp [List.tail, hn] at heq
  | Cons v t =>
    rw [hn] at hlen
    simp only [Node.toSeq, List.length_cons] at hlen
    have hpos : l.length ≠ 0 := by omega
    refine ⟨?_, ?_, ?_, ?_⟩
    · simp [List.head, hn, List.is_empty, List.len, hpos]
    · simp [List.tail, hn, List.is_empty, List.len, hpos]
    · rw [List.iterate_eq_toSeq, hn]
      simp [List.head, hn, Node.toSeq]
    · intro l2 heq
      simp only [List.tail, hn, Option.some.injEq] at heq
      constructor
      · rw [← heq]
        rfl
      · rw [← heq, List.iterate_eq_toSeq, List.iterate_eq_toSeq, hn]
        simp [Node.toSeq]

/-- Witness for C8: on the empty list, `head` answers the absent
signal. -/
theorem c8_head_tail_absent_witness :
    ((List.new : List Nat).head = none ↔ (List.new : List Nat).is_empty = true) :=
  (c8_head_tail_absent List.new Reachable.new).1

/-- Claim C10: for every reachable handle, a `Cons` root forces a cached
length of at least one and a `Nil` root forces length zero, so the
unsigned `length - 1` computed inside `tail` on a non-empty list is an
exact (non-underflowing) subtraction: adding one to the tail's length
recovers the original length. -/
theorem c10_tail_no_underflow {α : Type} (l : List α) (h : Reachable l) :
    (∀ (v : α) (t : Node α), l.node = Node.Cons v t → 1 ≤ l.length)
    ∧ (l.node = Node.Nil → l.length = 0)
    ∧ (∀ l2, l.tail = some l2 → l2.length + 1 = l.length) := by
  have hlen := h.length_eq
  refine ⟨?_, ?_, ?_⟩
  · intro v t hn
    rw [hn] at hlen
    simp only [Node.toSeq, List.length_cons] at hlen
    omega
  · intro hn
    rw [hn] at hlen
    simpa [Node.toSeq] using hlen
  · intro l2 heq
    cases hn : l.node with
    | Nil => simp [List.tail, hn] at heq
    | Cons v t =>
      rw [hn] at hlen
      simp only [Node.toSeq, List.length_cons] at hlen
      simp only [List.tail, hn, Option.some.injEq] at heq
      rw [← heq]
      show l.length - 1 + 1 = l.length
      omega

/-- Witness for C10: taking the tail of the singleton `cons(new(), 3)`
subtracts exactly one from the length. -/
theorem c10_tail_no_underflow_witness :
    (List.new : List Nat).length + 1 = (List.new.cons 3 : List Nat).length :=
  (c10_tail_no_underflow (List.new.cons 3)
    (Reachable.cons 3 Reachable.new)).2.2 List.new rfl

end Rpds
